import Mathlib

/-!
Verification of the Data-Stream-LLM-Enrichment pipeline.

Shallow embedding of the repository's core components:
  * `src/src/validation/llm_response_validator.py`  (LLMResponseValidator)
  * `src/src/processors/message_processor.py`       (MessageProcessor)
  * `src/src/llm/client.py`                         (LLMClient retry policy)
  * `src/src/app.py`                                (resume filter, dataset loader, orchestrator)
  * `src/src/workers/worker.py` + `src/src/queues/memory_queue.py` (worker pool)

Python runtime values are embedded as `PyVal`, Python exceptions as `PyErr`;
fallible Python code becomes `Except PyErr`.  Machine-level concerns (actual
network I/O, wall-clock time, logging) are abstracted as parameters, exactly as
the spec treats them (collaborator concerns).
-/

/-- Embedding of the Python/JSON values the pipeline manipulates.
`dict` is an association list (first binding wins on lookup; the JSON decoder
produces objects without duplicate keys). -/
inductive PyVal where
| none
| bool (b : Bool)
| int (n : Int)
| str (s : String)
| list (xs : List PyVal)
| dict (kvs : List (String × PyVal))

/-- Embedding of the Python exceptions visible to the pipeline.  Each carries
its `str(e)` message. `timeout` = requests.exceptions.Timeout, `connError` =
requests ConnectionError, `jsonDecodeError` = json.JSONDecodeError,
`valueError` = ValueError (also pydantic ValidationError is modelled with
`validationError`), `requestException` = requests RequestException,
`keyError` / `attributeError` / `typeError` are the builtin exceptions. -/
inductive PyErr where
| timeout (msg : String)
| connError (msg : String)
| jsonDecodeError (msg : String)
| valueError (msg : String)
| requestException (msg : String)
| keyError (msg : String)
| attributeError (msg : String)
| typeError (msg : String)
| validationError (msg : String)
deriving Repr, DecidableEq

/-- `str(e)` for an exception: its message. -/
def PyErr.msg : PyErr → String
| .timeout m => m
| .connError m => m
| .jsonDecodeError m => m
| .valueError m => m
| .requestException m => m
| .keyError m => m
| .attributeError m => m
| .typeError m => m
| .validationError m => m

/-- `d.get(k, default)` on an embedded dict (association-list lookup). -/
def pyGetD (kvs : List (String × PyVal)) (k : String) (dflt : PyVal) : PyVal :=
  match kvs.lookup k with
  | some v => v
  | Option.none => dflt

/-- `d.get(k)` (no default: absent key gives Python `None` represented as
`Option.none` so that the `is True` identity test can be stated). -/
def pyGet? (kvs : List (String × PyVal)) (k : String) : Option PyVal :=
  kvs.lookup k

/-- Python truthiness (`if not raw:`). -/
def pyTruthy : PyVal → Bool
| .none => false
| .bool b => b
| .int n => n != 0
| .str s => s != ""
| .list xs => !xs.isEmpty
| .dict kvs => !kvs.isEmpty

mutual
/-- Python `==` between the embedded values.  Numeric cross-type equality
(`True == 1`, `False == 0`) is included; container equality is structural
pointwise equality, which coincides with Python for the embedded fragment. -/
def pyEq : PyVal → PyVal → Bool
| .none, .none => true
| .bool a, .bool b => a == b
| .int a, .int b => a == b
| .bool a, .int b => (if a then (1 : Int) else 0) == b
| .int a, .bool b => a == (if b then (1 : Int) else 0)
| .str a, .str b => a == b
| .list xs, .list ys => pyEqList xs ys
| .dict xs, .dict ys => pyEqDict xs ys
| _, _ => false

/-- Pointwise Python `==` on lists. -/
def pyEqList : List PyVal → List PyVal → Bool
| [], [] => true
| x :: xs, y :: ys => pyEq x y && pyEqList xs ys
| _, _ => false

/-- Pointwise Python `==` on dicts (same binding order assumed; duplicate-free
JSON objects compare equal exactly when their bindings agree). -/
def pyEqDict : List (String × PyVal) → List (String × PyVal) → Bool
| [], [] => true
| (k, v) :: xs, (k2, v2) :: ys => k == k2 && pyEq v v2 && pyEqDict xs ys
| _, _ => false
end

/-- The ASCII whitespace characters stripped by `str.strip()` / split by
`str.split()` (Python also strips some further Unicode whitespace; the
pipeline's data is ASCII and the claims only concern these). -/
def isPyWs (c : Char) : Bool :=
  c = ' ' || c = '\t' || c = '\n' || c = '\r' || c = '\x0b' || c = '\x0c'

/-- ASCII case folding of one character, as `str.lower()` acts on the ASCII
range (the validator's email pattern only accepts ASCII anyway). -/
def asciiLowerChar (c : Char) : Char :=
  if 65 ≤ c.toNat && c.toNat ≤ 90 then Char.ofNat (c.toNat + 32) else c

/-- `s.lower()` restricted to the ASCII range. -/
def pyLower (s : String) : String := ⟨s.data.map asciiLowerChar⟩

/-- `strip()` on a character list: drop whitespace at both ends. -/
def stripChars (l : List Char) : List Char :=
  ((l.dropWhile isPyWs).reverse.dropWhile isPyWs).reverse

/-- `s.strip()`. -/
def pyStrip (s : String) : String := ⟨stripChars s.data⟩

/-- Worker loop of `str.split()` (no separator): split on whitespace runs,
dropping empty tokens; `acc` holds the current token reversed. -/
def splitWsAux : List Char → List Char → List (List Char)
| [], acc => if acc.isEmpty then [] else [acc.reverse]
| c :: cs, acc =>
  if isPyWs c then
    if acc.isEmpty then splitWsAux cs [] else acc.reverse :: splitWsAux cs []
  else splitWsAux cs (c :: acc)

/-- `s.split()` (whitespace split, empty tokens dropped). -/
def pySplit (s : String) : List String :=
  (splitWsAux s.data []).map fun l => ⟨l⟩

/-- Character-level single-space join (the list view of the join below). -/
def joinWithSpaceChars : List (List Char) → List Char
| [] => []
| [w] => w
| w :: ws => w ++ ' ' :: joinWithSpaceChars ws

/-- Python single-space join as used by the validator. -/
def joinSpace : List String → String
| [] => ""
| [w] => w
| w :: ws => w ++ " " ++ joinSpace ws

/-- Is `needle` a contiguous sublist of `hay`? -/
def subChars (needle : List Char) : List Char → Bool
| [] => needle.isEmpty
| c :: cs => needle.isPrefixOf (c :: cs) || subChars needle cs

/-- `sub in s` substring containment. -/
def strContains (s sub : String) : Bool := subChars sub.data s.data

/-- The single-quote character, for Python `repr` of strings. -/
def squote : String := (Char.ofNat 39).toString

mutual
/-- Python `str()` of a value, as applied by `_extract_description` to a
non-string field: strings pass through, scalars print Python-style, containers
print via `repr` of their elements (escaping of special characters inside
`repr`ed strings is not modelled; no claim exercises it). -/
def pyStr : PyVal → String
| .none => "None"
| .bool true => "True"
| .bool false => "False"
| .int n => toString n
| .str s => s
| .list xs => "[" ++ pyReprItems xs ++ "]"
| .dict kvs => "\x7b" ++ pyReprKvs kvs ++ "\x7d"

/-- Python `repr()` of a value (string values quoted). -/
def pyRepr : PyVal → String
| .str s => squote ++ s ++ squote
| v => pyStr v

/-- Comma-separated `repr`s of list items. -/
def pyReprItems : List PyVal → String
| [] => ""
| [x] => pyRepr x
| x :: xs => pyRepr x ++ ", " ++ pyReprItems xs

/-- Comma-separated `repr`ed key/value pairs of a dict. -/
def pyReprKvs : List (String × PyVal) → String
| [] => ""
| [(k, v)] => squote ++ k ++ squote ++ ": " ++ pyRepr v
| (k, v) :: xs => squote ++ k ++ squote ++ ": " ++ pyRepr v ++ ", " ++ pyReprKvs xs
end

/-! ## Data model (`src/src/models/`) -/

/-- Modelled from the spec: `src/src/models/category.py` is absent from the
provided sources (only imported via `src/src/models/__init__.py`).  The spec
fixes the closed enumeration: Category = one of phishing, newsletter,
internal; `src/src/llm/prompts.py` and the tests confirm these three string
values. -/
inductive Category where
| phishing
| newsletter
| internal
deriving Repr, DecidableEq

/-- The string value of each enum member (a Python `str` enum value). -/
def Category.value : Category → String
| .phishing => "phishing"
| .newsletter => "newsletter"
| .internal => "internal"

/-- `Category(value)`: the enum constructor, failing on a non-member string
(Python raises `ValueError`, modelled as `Option.none` at this level). -/
def Category.fromValue (v : String) : Option Category :=
  if v = "phishing" then some .phishing
  else if v = "newsletter" then some .newsletter
  else if v = "internal" then some .internal
  else Option.none

/-- `models/validated_llm_response.py`: frozen dataclass with an optional
category (the field type is `Optional[Category]`), a description and the
email list. -/
structure ValidatedLLMResponse where
  category : Option Category
  description : String
  emails : List String
deriving Repr, DecidableEq

/-- `models/enrichment_result.py`: per-message outcome record. -/
structure EnrichmentResult where
  id : Int
  success : Bool
  category : Option Category := Option.none
  description : Option String := Option.none
  emails : Option (List String) := Option.none
  error : Option String := Option.none
deriving Repr, DecidableEq

/-- `models/message.py`: the data carried by a validated `Message`
(pydantic enforces the field constraints at construction, see `mkMessage`). -/
structure Message where
  id : Int
  text : String
deriving Repr, DecidableEq

/-- Pydantic construction of `Message(id=..., text=...)`: `id` must be an
integer `> 0` and `text` a string of length 1..10000, otherwise a
`ValidationError` is raised.  (Pydantic's lax coercion of numeric strings to
int is not modelled; no loader path in the dataset contract exercises it.) -/
def mkMessage (idv textv : PyVal) : Except PyErr Message :=
  match idv, textv with
  | .int n, .str s =>
    if n ≤ 0 then .error (.validationError "id must be greater than 0")
    else if s.length < 1 then .error (.validationError "text too short")
    else if 10000 < s.length then .error (.validationError "text too long")
    else .ok ⟨n, s⟩
  | .int n, _ =>
    if n ≤ 0 then .error (.validationError "id must be greater than 0")
    else .error (.validationError "text must be a string")
  | _, _ => .error (.validationError "id must be an integer")

/-! ## ResponseValidator (`src/src/validation/llm_response_validator.py`) -/

/-- Character class `[a-zA-Z0-9._%+-]` (local part of the email pattern). -/
def isLocalChar (c : Char) : Bool :=
  c.isAlpha || c.isDigit || c = '.' || c = '_' || c = '%' || c = '+' || c = '-'

/-- Character class `[a-zA-Z0-9.-]` (domain part of the email pattern). -/
def isDomainChar (c : Char) : Bool :=
  c.isAlpha || c.isDigit || c = '.' || c = '-'

/-- Core match of `^[a-zA-Z0-9._%+-]+@[a-zA-Z0-9.-]+\.[a-zA-Z]{2,}$` against a
whole string.  Neither character class contains an at-sign, so a match forces
exactly one at-sign; the mandatory dot must be the last dot of the domain
(the trailing `[a-zA-Z]{2,}` reaches the end and contains no dot), so the
pattern holds iff: exactly one at-sign; nonempty all-local left part; domain
with at least one dot whose part before the last dot is nonempty all-domain
and whose part after the last dot is 2+ letters. -/
def emailMatchCore (l : List Char) : Bool :=
  match l.splitOn '@' with
  | [loc, dom] =>
    let rev := dom.reverse
    let tld := (rev.takeWhile (fun c => c ≠ '.')).reverse
    let restRev := rev.dropWhile (fun c => c ≠ '.')
    !loc.isEmpty && loc.all isLocalChar &&
      !restRev.isEmpty &&
      (let pre := (restRev.drop 1).reverse
       !pre.isEmpty && pre.all isDomainChar) &&
      decide (2 ≤ tld.length) && tld.all Char.isAlpha
  | _ => false

/-- `re.match` with the validator's anchored pattern: in Python a final
dollar also matches just before one trailing newline, so that case is
included (it is unreachable after `strip()` but kept for fidelity). -/
def emailPatternMatch (l : List Char) : Bool :=
  emailMatchCore l ||
    (match l.getLast? with
     | some c => c = '\n' && emailMatchCore l.dropLast
     | Option.none => false)

/-- `LLMResponseValidator._is_valid_email`. -/
def is_valid_email (email : String) : Bool :=
  if !emailPatternMatch email.data then false
  else if strContains email "@@" || strContains email ".." then false
  else true

/-- `LLMResponseValidator._extract_emails` on the response dict entries:
`raw = llm_response.get('emails', [])`; non-list → `[]`; else lowercase and
strip each string item (non-strings skipped), keep those passing
`_is_valid_email`, collect into a set and return `sorted(...)`.  The
set-then-sort is modelled as dedup-then-insertion-sort: a sorted
duplicate-free list with the same members. -/
def extract_emails (kvs : List (String × PyVal)) : List String :=
  match pyGetD kvs "emails" (.list []) with
  | .list items =>
    let normalized := items.filterMap fun item =>
      match item with
      | .str s =>
        let email := pyStrip (pyLower s)
        if is_valid_email email then some email else Option.none
      | _ => Option.none
    List.insertionSort (· ≤ ·) normalized.dedup
  | _ => []

/-- `LLMResponseValidator._extract_category`: take the `category` field
(default empty string); non-strings raise `ValueError`; otherwise
lowercase + strip and pass through the `Category` enum constructor, which
raises `ValueError` on a non-member. -/
def extract_category (kvs : List (String × PyVal)) : Except PyErr Category :=
  match pyGetD kvs "category" (.str "") with
  | .str raw =>
    let value := pyStrip (pyLower raw)
    match Category.fromValue value with
    | some c => .ok c
    | Option.none => .error (.valueError ("Invalid category: " ++ raw))
  | _ => .error (.valueError "Category must be a string")

/-- `LLMResponseValidator._extract_description`: take the `description` field
(default empty string); falsy → empty string; else `str(raw).strip()`, split
on whitespace, and truncate to the first `description_word_limit` tokens
joined with single spaces when the limit is nonzero and exceeded. -/
def extract_description (description_word_limit : Nat) (kvs : List (String × PyVal)) : String :=
  if !pyTruthy (pyGetD kvs "description" (.str "")) then ""
  else if description_word_limit ≠ 0 &&
      description_word_limit < (pySplit (pyStrip (pyStr (pyGetD kvs "description" (.str ""))))).length then
    joinSpace ((pySplit (pyStrip (pyStr (pyGetD kvs "description" (.str ""))))).take description_word_limit)
  else pyStrip (pyStr (pyGetD kvs "description" (.str "")))

/-- `LLMResponseValidator.validate`: a non-dict payload raises
(`AttributeError`, the `.get` call fails); on a dict, extract all three
fields — category first, so its `ValueError` aborts validation — and build
the frozen `ValidatedLLMResponse`. -/
def validate (description_word_limit : Nat) (llm_response : PyVal) :
    Except PyErr ValidatedLLMResponse :=
  match llm_response with
  | .dict kvs =>
    match extract_category kvs with
    | .error e => .error e
    | .ok category =>
      .ok ⟨some category, extract_description description_word_limit kvs, extract_emails kvs⟩
  | _ => .error (.attributeError "object has no attribute get")

/-! ## MessageProcessor (`src/src/processors/message_processor.py`) -/

/-- The body of `MessageProcessor.process` inside its `try:` block, with the
LLM call's behaviour (`gen`) and the injected validator (`val`) as
parameters: call the LLM; `None` → failure outcome; validate; a validated
response with a null category → failure outcome; else success outcome with
the validated fields.  Any exception escapes as `.error`. -/
def processBody (gen : Except PyErr (Option PyVal))
    (val : PyVal → Except PyErr ValidatedLLMResponse) (mid : Int) :
    Except PyErr EnrichmentResult :=
  match gen with
  | .error e => .error e
  | .ok Option.none =>
    .ok { id := mid, success := false, error := some "Failed to get LLM response" }
  | .ok (some raw) =>
    match val raw with
    | .error e => .error e
    | .ok validated =>
      match validated.category with
      | Option.none =>
        .ok { id := mid, success := false, error := some "Invalid category in LLM response" }
      | some c =>
        .ok { id := mid, success := true, category := some c, description := some validated.description, emails := some validated.emails }

/-- `MessageProcessor.process`: the `try/except Exception` boundary — any
exception from the body becomes a failure outcome with the classification
prefix and the original message; the function is total (never propagates). -/
def process (gen : Except PyErr (Option PyVal))
    (val : PyVal → Except PyErr ValidatedLLMResponse) (mid : Int) : EnrichmentResult :=
  match processBody gen val mid with
  | .ok r => r
  | .error e =>
    { id := mid, success := false, error := some ("Processing error: " ++ e.msg) }

/-! ## LLMClient retry policy (`src/src/llm/client.py`) -/

/-- `_is_retryable_exception`: timeouts, connection errors, JSON decode
errors and `ValueError`s are retryable; a `RequestException` is retryable
when the text of one of the configured retry status codes occurs in its
message; everything else is not. -/
def is_retryable_exception (retry_status_codes : List Nat) : PyErr → Bool
| .timeout _ => true
| .connError _ => true
| .jsonDecodeError _ => true
| .valueError _ => true
| .requestException m => retry_status_codes.any fun code => strContains m (toString code)
| _ => false

/-- The tenacity retry loop around one attempt function, with
`retry_if_exception(retryable)`, `stop_after_attempt` and `reraise=True`:
run attempt `k`; success returns; a non-retryable failure or an exhausted
budget re-raises the last exception verbatim; otherwise try again.
`remaining` counts the attempts still allowed after this one, so the loop
started with `retryLoop retryable attempt 1 (maxAttempts - 1)` performs at
most `maxAttempts` attempts.  Returns the outcome together with the number
of the attempt that produced it. -/
def retryLoop (retryable : PyErr → Bool) (attempt : Nat → Except PyErr PyVal) :
    Nat → Nat → Except PyErr PyVal × Nat
| k, remaining =>
  match attempt k with
  | .ok v => (.ok v, k)
  | .error e =>
    if retryable e then
      match remaining with
      | 0 => (.error e, k)
      | r + 1 => retryLoop retryable attempt (k + 1) r
    else (.error e, k)

/-- `LLMClient.generate` under its `@retry` decorator, with the per-attempt
network behaviour abstracted as `attempt`: `stop_after_attempt(max(1,
RETRIES + 1))` with `retry_if_exception(_is_retryable_exception)` and
`reraise=True`. -/
def generate (retry_status_codes : List Nat) (retries : Nat)
    (attempt : Nat → Except PyErr PyVal) : Except PyErr PyVal × Nat :=
  retryLoop (is_retryable_exception retry_status_codes) attempt 1 (max 1 (retries + 1) - 1)

/-- Modelled from the external tenacity library (`tenacity.wait.
wait_exponential_jitter`, the wait strategy `client.py` configures with
`initial = RETRY_BACKOFF_BASE_S`, `max = RETRY_BACKOFF_MAX_S`,
`jitter = RETRY_JITTER_S`): after failed attempt `k` it draws
`j = random.uniform(0, jitter)` and waits
`max(0, min(initial * 2^(k-1) + j, maximum))` — the cap is applied to the
sum, after the jitter has been added.  Reals are modelled as rationals; the
drawn jitter is a parameter. -/
def wait_exponential_jitter (initial maximum : ℚ) (k : Nat) (j : ℚ) : ℚ :=
  max 0 (min (initial * 2 ^ (k - 1) + j) maximum)

/-- The wait formula the spec states: cap on the exponential term alone,
jitter added afterwards (for comparison with the implementation). -/
def specWaitFormula (initial maximum : ℚ) (k : Nat) (j : ℚ) : ℚ :=
  min (initial * 2 ^ (k - 1)) maximum + j

/-! ## Resume filter (`EnrichmentApplication._load_processed_ids` /
`enqueue_messages`, `src/src/app.py`) -/

/-- The observable states of the prior output file when the resume filter
reads it: absent, unreadable (the open/read raised), not JSON
(`json.JSONDecodeError` from `json.load`), or a parsed JSON value. -/
inductive PriorOutput where
| missing
| unreadable
| malformedJson
| val (v : PyVal)

/-- The set comprehension over the parsed results:
`r['id'] for r in results if isinstance(r, dict) and r.get('success') is True`.
Subscripting a qualifying record that lacks an `id` key raises `KeyError`,
aborting the whole comprehension. -/
def collectSuccessIds : List PyVal → Except PyErr (List PyVal)
| [] => .ok []
| r :: rest =>
  match r with
  | .dict kvs =>
    match pyGet? kvs "success" with
    | some (.bool true) =>
      match pyGet? kvs "id" with
      | some v =>
        match collectSuccessIds rest with
        | .error e => .error e
        | .ok ids => .ok (v :: ids)
      | Option.none => .error (.keyError "id")
    | _ => collectSuccessIds rest
  | _ => collectSuccessIds rest

/-- `EnrichmentApplication._load_processed_ids`: missing file → empty;
unreadable or malformed JSON → caught, empty; a parsed JSON array → the
comprehension (any exception inside, e.g. the `KeyError`, is caught and
degrades to empty); any other parsed value iterates to nothing that is a
dict (dict iterates its string keys, a string its characters) or raises
`TypeError` — all caught, empty. -/
def load_processed_ids : PriorOutput → List PyVal
| .missing => []
| .unreadable => []
| .malformedJson => []
| .val (.list rs) =>
  match collectSuccessIds rs with
  | .ok ids => ids
  | .error _ => []
| .val _ => []

/-- `message.id in processed_ids` (Python set membership via `==`). -/
def idProcessed (mid : Int) (ids : List PyVal) : Bool :=
  ids.any (pyEq (.int mid))

/-- `EnrichmentApplication.enqueue_messages`: enqueue, in input order, every
message whose id is not in the processed set (the in-memory unbounded queue
never fails to enqueue). -/
def enqueue_messages (messages : List Message) (prior : PriorOutput) : List Message :=
  let processed := load_processed_ids prior
  messages.filter fun m => !idProcessed m.id processed

/-- Claim-side definition, following the spec's words only: the ids to skip
are those appearing in a prior record with `success = true` (records
without an `id` simply contribute nothing). -/
def specSuccessIds : PriorOutput → List PyVal
| .val (.list rs) =>
  rs.filterMap fun r =>
    match r with
    | .dict kvs =>
      match pyGet? kvs "success" with
      | some (.bool true) => pyGet? kvs "id"
      | _ => Option.none
    | _ => Option.none
| _ => []

/-- Claim-side filter, following the spec's words: input minus the items
whose id is in the spec-side success set. -/
def specResumeFilter (messages : List Message) (prior : PriorOutput) : List Message :=
  messages.filter fun m => !idProcessed m.id (specSuccessIds prior)

/-! ## Dataset loader (`EnrichmentApplication.load_dataset`, `src/src/app.py`) -/

/-- `item.get('text', item.get('message', ''))`. -/
def textOf (kvs : List (String × PyVal)) : PyVal :=
  pyGetD kvs "text" (pyGetD kvs "message" (.str ""))

/-- One iteration of the array branch of `load_dataset`: a dict item is
constructed with `id` defaulting to the positional index `i`; a plain string
item gets `id = i`; anything else is silently skipped (`Option.none`). -/
def loadItem (i : Nat) : PyVal → Option (Except PyErr Message)
| .dict kvs => some (mkMessage (pyGetD kvs "id" (.int i)) (textOf kvs))
| .str s => some (mkMessage (.int i) (.str s))
| _ => Option.none

/-- The array branch loop: skipped items advance the index; a pydantic
`ValidationError` propagates (caught in `load_dataset` only to be logged and
re-raised). -/
def loadItems : List PyVal → Nat → Except PyErr (List Message)
| [], _ => .ok []
| item :: rest, i =>
  match loadItem i item with
  | Option.none => loadItems rest (i + 1)
  | some (.error e) => .error e
  | some (.ok m) => do
    let ms ← loadItems rest (i + 1)
    .ok (m :: ms)

/-- The `messages`-array branch: every element is subscripted with `.get`,
so a non-dict element raises `AttributeError`. -/
def loadMsgItems : List PyVal → Nat → Except PyErr (List Message)
| [], _ => .ok []
| (.dict kvs) :: rest, i =>
  match mkMessage (pyGetD kvs "id" (.int i)) (textOf kvs) with
  | .error e => .error e
  | .ok m => do
    let ms ← loadMsgItems rest (i + 1)
    .ok (m :: ms)
| _ :: _, _ => .error (.attributeError "item has no attribute get")

/-- The `messages` value being iterated: a list loads item by item (each
must be a dict); iterating a string or a dict yields string elements whose
`.get` raises `AttributeError` (unless empty, when the loop never runs);
other scalars raise `TypeError` at `enumerate`. -/
def loadMessagesVal : PyVal → Except PyErr (List Message)
| .list items => loadMsgItems items 0
| .str s => if s.isEmpty then .ok [] else .error (.attributeError "str item has no attribute get")
| .dict kvs2 => if kvs2.isEmpty then .ok [] else .error (.attributeError "str item has no attribute get")
| _ => .error (.typeError "object is not iterable")

/-- `EnrichmentApplication.load_dataset` on the parsed JSON value: an array
is loaded item by item; an object with a `messages` key iterates that value;
an object without `messages` is a single message with `id` defaulting to
`0`; any other JSON value falls through both `isinstance` checks and yields
no messages. -/
def load_dataset : PyVal → Except PyErr (List Message)
| .list items => loadItems items 0
| .dict kvs =>
  match pyGet? kvs "messages" with
  | some mv => loadMessagesVal mv
  | Option.none =>
    match mkMessage (pyGetD kvs "id" (.int 0)) (textOf kvs) with
    | .error e => .error e
    | .ok m => .ok [m]
| _ => .ok []

/-! ## Worker pool (`src/src/workers/worker.py`, `src/src/queues/memory_queue.py`,
`EnrichmentApplication.start_processing`, `src/src/app.py`) -/

/-- One worker's private accumulator and whether it has observed the empty
queue and left its loop (`Drained`). -/
structure WorkerSt where
  results : List EnrichmentResult
  drained : Bool
deriving Repr, DecidableEq

/-- The shared state of the drain phase: the pre-loaded FIFO queue and the
worker pool.  Workers share only the queue; each owns its results list. -/
structure PoolState where
  queue : List Message
  workers : List WorkerSt

/-- One scheduler step of the drain phase, with the processor call abstracted
as the function `proc` (the worker's own `try/except` also yields exactly one
result per dequeued message): a non-drained worker either dequeues the head
of the non-empty queue and appends the outcome to its own results, or
observes the empty queue (`get_nowait` raising `QueueEmpty`, surfaced as
`None`) and becomes drained. -/
inductive PoolStep (proc : Message → EnrichmentResult) : PoolState → PoolState → Prop
| dequeue (i : Nat) (m : Message) (rest : List Message) (ws : List WorkerSt) (w : WorkerSt)
    (hi : ws.get? i = some w) (hnd : w.drained = false) :
    PoolStep proc ⟨m :: rest, ws⟩ ⟨rest, ws.set i ⟨w.results ++ [proc m], false⟩⟩
| drain (i : Nat) (ws : List WorkerSt) (w : WorkerSt)
    (hi : ws.get? i = some w) (hnd : w.drained = false) :
    PoolStep proc ⟨[], ws⟩ ⟨[], ws.set i ⟨w.results, true⟩⟩

/-- All interleavings of the drain phase: reflexive-transitive closure of the
scheduler steps. -/
def PoolReach (proc : Message → EnrichmentResult) : PoolState → PoolState → Prop :=
  Relation.ReflTransGen (PoolStep proc)

/-- The initial state `start_processing` begins from: the fully pre-loaded
queue and `K` fresh workers. -/
def initState (msgs : List Message) (K : Nat) : PoolState :=
  ⟨msgs, List.replicate K ⟨[], false⟩⟩

/-- Every worker has reached its terminal `Drained` state (what
`asyncio.gather` waits for). -/
def AllDrained (s : PoolState) : Prop :=
  ∀ w ∈ s.workers, w.drained = true

/-- The final sort key: `all_results.sort(key=lambda r: r.id)`. -/
def byId (a b : EnrichmentResult) : Prop := a.id ≤ b.id

instance : IsTotal EnrichmentResult byId := ⟨fun a b => le_total a.id b.id⟩

instance : IsTrans EnrichmentResult byId := ⟨fun _ _ _ h1 h2 => le_trans h1 h2⟩

instance : DecidableRel byId := fun a b => (inferInstance : Decidable (a.id ≤ b.id))

/-- `start_processing` aggregation: concatenate the per-worker result lists
in pool order and sort the combination by id ascending — the sequence handed
to the persistence collaborator (`self.output_writer.write`). -/
def aggregate (s : PoolState) : List EnrichmentResult :=
  List.insertionSort byId (s.workers.map WorkerSt.results).flatten

/-- The ids currently held in worker accumulators. -/
def resultIds (s : PoolState) : List Int :=
  ((s.workers.map WorkerSt.results).flatten).map EnrichmentResult.id

/-! ## General helper lemmas -/

/-- A mapped function that fixes every element of a list leaves it unchanged. -/
theorem map_fix {α : Type} (f : α → α) : ∀ (l : List α), (∀ c ∈ l, f c = c) → l.map f = l
| [], _ => rfl
| c :: cs, h => by
  simp only [List.map_cons]
  rw [h c (List.mem_cons_self c cs), map_fix f cs fun x hx => h x (List.mem_cons_of_mem c hx)]

/-- The catch-all prefix can never produce the null-category error message. -/
theorem processing_error_ne (m : String) :
    "Processing error: " ++ m ≠ "Invalid category in LLM response" := by
  intro h
  have h2 := congrArg String.data h
  simp only [String.data_append] at h2
  simp at h2

/-! ## Claim C2: retry exhaustion and non-retryable propagation -/

/-- If every attempt from `k` on fails retryably, the loop performs exactly
the remaining budget of attempts and ends with the last attempt's error. -/
theorem retryLoop_all_fail (retryable : PyErr → Bool) (attempt : Nat → Except PyErr PyVal)
    (e : Nat → PyErr) (hfail : ∀ n, attempt n = .error (e n))
    (hretry : ∀ n, retryable (e n) = true) :
    ∀ (remaining k : Nat),
      retryLoop retryable attempt k remaining = (.error (e (k + remaining)), k + remaining)
| 0, k => by
  rw [retryLoop, hfail k]
  simp [hretry k]
| r + 1, k => by
  rw [retryLoop, hfail k]
  simp only [hretry k, if_true]
  have h : k + (r + 1) = (k + 1) + r := by omega
  rw [h]
  exact retryLoop_all_fail retryable attempt e hfail hretry r (k + 1)

/-- C2: with a retry budget of `retries` and every attempt failing with a
retryable condition, `LLMClient.generate` performs exactly `retries + 1`
attempts and re-raises the last attempt's exception unwrapped; and a
non-retryable failure on the first attempt propagates immediately with no
retry. -/
theorem C2_retry_budget (codes : List Nat) (retries : Nat)
    (attempt : Nat → Except PyErr PyVal) (e : Nat → PyErr)
    (hfail : ∀ n, attempt n = .error (e n))
    (hretry : ∀ n, is_retryable_exception codes (e n) = true) :
    generate codes retries attempt = (.error (e (retries + 1)), retries + 1) ∧
    ∀ (attempt2 : Nat → Except PyErr PyVal) (e1 : PyErr),
      attempt2 1 = .error e1 → is_retryable_exception codes e1 = false →
      generate codes retries attempt2 = (.error e1, 1) := by
  constructor
  case left =>
    rw [generate]
    have hmax : max 1 (retries + 1) - 1 = retries := by
      rw [Nat.max_eq_right (by omega : 1 ≤ retries + 1)]
      omega
    rw [hmax,
      retryLoop_all_fail (is_retryable_exception codes) attempt e hfail hretry retries 1,
      Nat.add_comm 1 retries]
  case right =>
    intro attempt2 e1 h1 hnr
    rw [generate, retryLoop, h1]
    simp [hnr]

/-- Witness for C2 at a concrete always-failing client with `retries = 2`:
exactly 3 attempts, the third attempt's timeout surfaces; and a concrete
non-retryable 404 propagates after 1 attempt. -/
theorem C2_retry_budget_witness :
    generate [429, 500, 502, 503, 504] 2 (fun k => .error (.timeout (toString k)))
        = (.error (.timeout "3"), 3) ∧
    generate [429, 500, 502, 503, 504] 2 (fun _ => .error (.requestException "404 Client Error"))
        = (.error (.requestException "404 Client Error"), 1) := by
  have h := C2_retry_budget [429, 500, 502, 503, 504] 2
      (fun k => .error (.timeout (toString k))) (fun k => .timeout (toString k))
      (fun _ => rfl) (fun _ => rfl)
  exact ⟨h.1, h.2 (fun _ => .error (.requestException "404 Client Error"))
      (.requestException "404 Client Error") rfl (by decide)⟩

/-! ## Claim C7: backoff formula -/

/-- C7 as stated is false on the code: tenacity's `wait_exponential_jitter`
caps the sum of exponential term and jitter, not the exponential term alone.
At `backoff_base_s = 1`, `backoff_max_s = 30`, `jitter_s = 1/4`, failed
attempt `k = 6` and drawn jitter `j = 1/4`: the implementation waits `30`
while the claimed formula gives `30.25`. -/
theorem C7_counterexample :
    wait_exponential_jitter 1 30 6 (1/4) = 30 ∧
    specWaitFormula 1 30 6 (1/4) = 121/4 ∧
    (30 : ℚ) ≠ 121/4 ∧
    (0 : ℚ) ≤ 1/4 ∧ (1/4 : ℚ) ≤ 1/4 := by
  refine ⟨?_, ?_, by norm_num, by norm_num, le_refl _⟩
  · rw [wait_exponential_jitter]
    norm_num
  · rw [specWaitFormula]
    norm_num

/-- C7 amended: the wait before the next attempt after failed attempt `k`
(1-indexed) equals `max(0, min(backoff_base_s * 2^(k-1) + j, backoff_max_s))`
for the drawn jitter `j ∈ [0, jitter_s]` — the cap applies to the sum of the
exponential term and the jitter; whenever that sum does not exceed the cap,
this coincides with the spec's `min(backoff_base_s * 2^(k-1), backoff_max_s) + j`,
and the exponential term at the first retry (`k = 1`) is `backoff_base_s`. -/
theorem C7_wait_cap_after_jitter (initial maximum jitter : ℚ) (k : Nat) (j : ℚ)
    (hj0 : 0 ≤ j) (hjle : j ≤ jitter) (hbase : 0 ≤ initial) :
    wait_exponential_jitter initial maximum k j
        = max 0 (min (initial * 2 ^ (k - 1) + j) maximum) ∧
    (initial * 2 ^ (k - 1) + j ≤ maximum →
        wait_exponential_jitter initial maximum k j = specWaitFormula initial maximum k j) ∧
    initial * 2 ^ (1 - 1) = initial := by
  refine ⟨rfl, ?_, by norm_num⟩
  intro hsum
  have hexp : (0 : ℚ) ≤ initial * 2 ^ (k - 1) := by positivity
  have h0 : (0 : ℚ) ≤ initial * 2 ^ (k - 1) + j := by linarith
  rw [wait_exponential_jitter, specWaitFormula, min_eq_left hsum, max_eq_right h0,
    min_eq_left (by linarith : initial * 2 ^ (k - 1) ≤ maximum)]

/-- Witness for the amended C7 at `base = 1`, `max = 30`, `jitter = 1/4`,
`k = 2`, drawn jitter `0`. -/
theorem C7_wait_cap_after_jitter_witness :
    wait_exponential_jitter 1 30 2 0 = specWaitFormula 1 30 2 0 := by
  exact (C7_wait_cap_after_jitter 1 30 (1/4) 2 0 (le_refl 0) (by norm_num) (by norm_num)).2.1
    (by norm_num)

/-! ## Claim C5: category validation -/

/-- `Category(v)` succeeds with `c` exactly when `v` is the enum value of `c`. -/
theorem fromValue_eq_some (v : String) (c : Category) :
    Category.fromValue v = some c ↔ v = c.value := by
  rw [Category.fromValue]
  split_ifs with h1 h2 h3 <;> cases c <;>
    simp_all [Category.value]

/-- Enum values are distinct, so they identify the member. -/
theorem category_value_inj (c c2 : Category) : c.value = c2.value ↔ c = c2 := by
  cases c <;> cases c2 <;> simp [Category.value]

/-- `_extract_category` succeeds with `c` exactly when the field is a string
whose lowercased, trimmed form is the value of `c`. -/
theorem extract_category_ok_iff (kvs : List (String × PyVal)) (c : Category) :
    extract_category kvs = .ok c ↔
      ∃ s, pyGetD kvs "category" (.str "") = .str s ∧ pyStrip (pyLower s) = c.value := by
  rcases hget : pyGetD kvs "category" (.str "") with _ | b | n | s | xs | kvs2
  case str =>
    simp only [extract_category, hget]
    rcases hf : Category.fromValue (pyStrip (pyLower s)) with _ | c0
    · simp only [PyVal.str.injEq, exists_eq_left']
      constructor
      · intro h
        exact absurd h (by simp)
      · intro h
        rw [(fromValue_eq_some _ c).mpr h] at hf
        cases hf
    · simp only [PyVal.str.injEq, exists_eq_left', Except.ok.injEq]
      have h0 := (fromValue_eq_some (pyStrip (pyLower s)) c0).mp hf
      constructor
      · intro h
        subst h
        exact h0
      · intro h
        exact (category_value_inj c0 c).mp (h0.symm.trans h)
  all_goals simp [extract_category, hget]

/-- C5 fails as stated: the code lowercases **and strips** the field, so
`" INTERNAL "` — a string that is not a case-insensitive match of any enum
value (its lowercase form `" internal "` is not in the enumeration) — is
accepted as `Category.internal` instead of raising. -/
theorem C5_counterexample :
    extract_category [("category", .str " INTERNAL ")] = .ok .internal ∧
    pyGetD [("category", .str " INTERNAL ")] "category" (.str "") = .str " INTERNAL " ∧
    pyLower " INTERNAL " = " internal " ∧
    Category.fromValue " internal " = Option.none := by
  exact ⟨rfl, rfl, by decide, rfl⟩

/-- C5 amended: validation of the category field succeeds with enum member
`c` exactly when the field (defaulting to the empty string) is a string
whose lowercased **and whitespace-trimmed** form equals the value of `c`,
and raises `ValueError` exactly otherwise — in particular when the field is
missing, not textual, or not a case-insensitive-after-trimming match of the
closed enumeration. -/
theorem C5_category_match (kvs : List (String × PyVal)) :
    (∀ c : Category, extract_category kvs = .ok c ↔
        ∃ s, pyGetD kvs "category" (.str "") = .str s ∧ pyStrip (pyLower s) = c.value) ∧
    ((∃ err, extract_category kvs = .error err) ↔
        ¬ ∃ s c, pyGetD kvs "category" (.str "") = .str s ∧ pyStrip (pyLower s) = Category.value c) := by
  refine ⟨fun c => extract_category_ok_iff kvs c, ?_⟩
  constructor
  · rintro ⟨err, herr⟩ ⟨s, c, hs, hval⟩
    have : extract_category kvs = .ok c := (extract_category_ok_iff kvs c).mpr ⟨s, hs, hval⟩
    rw [herr] at this
    cases this
  · intro h
    rcases hx : extract_category kvs with err | c
    · exact ⟨err, rfl⟩
    · exact absurd (by
        rcases (extract_category_ok_iff kvs c).mp hx with ⟨s, hs, hval⟩
        exact ⟨s, c, hs, hval⟩) h

/-- Witness for the amended C5: a concrete mixed-case, padded category field
is accepted as `internal`, and a concrete missing field raises. -/
theorem C5_category_match_witness :
    extract_category [("category", .str " INTERNAL ")] = .ok .internal ∧
    ∃ err, extract_category [] = .error err := by
  constructor
  · exact ((C5_category_match [("category", .str " INTERNAL ")]).1 .internal).mpr
      ⟨" INTERNAL ", rfl, by decide⟩
  · exact (C5_category_match []).2.mpr (by
      rintro ⟨s, c, hs, hval⟩
      cases hs
      cases c <;> simp [Category.value] at hval <;> revert hval <;> decide)

/-! ## Claim C1: Processor total-catch boundary -/

/-- The catch-all prefix never yields the empty string. -/
theorem processing_error_nonempty (m : String) : "Processing error: " ++ m ≠ "" := by
  intro h
  have h2 := congrArg String.data h
  simp only [String.data_append] at h2
  simp at h2

/-- C1: for every behaviour of the LLM call (value, null, or exception) and
of the injected validator (value or exception), `MessageProcessor.process`
returns an outcome carrying the message id; the outcome is successful
exactly when the LLM returned a payload that the validator accepted with a
non-null category — and then it carries the validated category, description
and emails; on every other path the outcome has `success = false` and a
nonempty error string.  The embedding of `process` is a total function:
no exception propagates past the boundary. -/
theorem C1_process_boundary (gen : Except PyErr (Option PyVal))
    (val : PyVal → Except PyErr ValidatedLLMResponse) (mid : Int) :
    (process gen val mid).id = mid ∧
    ((process gen val mid).success = true ↔
      ∃ raw v c, gen = .ok (some raw) ∧ val raw = .ok v ∧ v.category = some c ∧
        process gen val mid = { id := mid, success := true, category := some c, description := some v.description, emails := some v.emails }) ∧
    ((process gen val mid).success = false →
      ∃ s, (process gen val mid).error = some s ∧ s ≠ "") := by
  rcases hg : gen with e | o
  · have hp : process (.error e) val mid = { id := mid, success := false, error := some ("Processing error: " ++ e.msg) } := rfl
    rw [hp]
    refine ⟨rfl, by simp, fun _ => ⟨_, rfl, processing_error_nonempty e.msg⟩⟩
  · rcases o with _ | raw
    · have hp : process (.ok Option.none) val mid = { id := mid, success := false, error := some "Failed to get LLM response" } := rfl
      rw [hp]
      refine ⟨rfl, by simp, fun _ => ⟨_, rfl, by decide⟩⟩
    · rcases hv : val raw with e | v
      · have hp : process (.ok (some raw)) val mid = { id := mid, success := false, error := some ("Processing error: " ++ e.msg) } := by
          rw [process, processBody, hv]
        rw [hp]
        refine ⟨rfl, ?_, fun _ => ⟨_, rfl, processing_error_nonempty e.msg⟩⟩
        simp [hv]
      · rcases hc : v.category with _ | c
        · have hp : process (.ok (some raw)) val mid = { id := mid, success := false, error := some "Invalid category in LLM response" } := by
            simp [process, processBody, hv, hc]
          rw [hp]
          refine ⟨rfl, ?_, fun _ => ⟨_, rfl, by decide⟩⟩
          simp [hv, hc]
        · have hp : process (.ok (some raw)) val mid = { id := mid, success := true, category := some c, description := some v.description, emails := some v.emails } := by
            simp [process, processBody, hv, hc]
          rw [hp]
          refine ⟨rfl, ?_, fun h => by simp at h⟩
          constructor
          · exact fun _ => ⟨raw, v, c, rfl, hv, hc, rfl⟩
          · exact fun _ => rfl

/-- Witness for C1 on three concrete behaviours: a raising client, a null
response, and a full success. -/
theorem C1_process_boundary_witness :
    (process (.error (.timeout "timed out")) (validate 25) 7).id = 7 ∧
    (∃ s, (process (.error (.timeout "timed out")) (validate 25) 7).error = some s ∧ s ≠ "") ∧
    (∃ s, (process (.ok Option.none) (validate 25) 8).error = some s ∧ s ≠ "") ∧
    (process (.ok (some (.dict [("category", .str "internal")]))) (validate 25) 9).success = true := by
  refine ⟨(C1_process_boundary (.error (.timeout "timed out")) (validate 25) 7).1,
    (C1_process_boundary (.error (.timeout "timed out")) (validate 25) 7).2.2 rfl,
    (C1_process_boundary (.ok Option.none) (validate 25) 8).2.2 rfl,
    ((C1_process_boundary (.ok (some (.dict [("category", .str "internal")]))) (validate 25) 9).2.1).mpr
      ⟨.dict [("category", .str "internal")], ⟨some .internal, "", []⟩, .internal, rfl, rfl, rfl, rfl⟩⟩

/-! ## Claim C10: validated category is never null -/

/-- C10: whenever the real validator returns normally, the category it
carries is a member of the closed enumeration (never null); consequently,
when `process` is run with the real validator, its dedicated null-category
failure branch is unreachable: the outcome error is never the
"Invalid category in LLM response" message. -/
theorem C10_null_category_unreachable :
    (∀ (L : Nat) (raw : PyVal) (v : ValidatedLLMResponse),
        validate L raw = .ok v → ∃ c : Category, v.category = some c) ∧
    (∀ (L : Nat) (gen : Except PyErr (Option PyVal)) (mid : Int),
        (process gen (validate L) mid).error ≠ some "Invalid category in LLM response") := by
  have hok : ∀ (L : Nat) (raw : PyVal) (v : ValidatedLLMResponse),
      validate L raw = .ok v → ∃ c : Category, v.category = some c := by
    intro L raw v h
    rcases raw with _ | b | n | str | xs | kvs
    case dict =>
      rcases hc : extract_category kvs with e | c
      · rw [validate] at h
        rw [hc] at h
        cases h
      · rw [validate] at h
        rw [hc] at h
        injection h with h2
        subst h2
        exact ⟨c, rfl⟩
    all_goals simp [validate] at h
  refine ⟨hok, ?_⟩
  intro L gen mid
  rcases hg : gen with e | o
  · intro h
    have h2 : some ("Processing error: " ++ e.msg) = some "Invalid category in LLM response" := h
    injection h2 with h3
    exact processing_error_ne e.msg h3
  · rcases o with _ | raw
    · intro h
      have h2 : some "Failed to get LLM response" = some "Invalid category in LLM response" := h
      injection h2 with h3
      exact absurd h3 (by decide)
    · rcases hv : validate L raw with e | v
      · have hp : process (.ok (some raw)) (validate L) mid = { id := mid, success := false, error := some ("Processing error: " ++ e.msg) } := by
          rw [process, processBody, hv]
        rw [hp]
        intro h
        injection h with h3
        exact processing_error_ne e.msg h3
      · rcases hok L raw v hv with ⟨c, hc⟩
        have hp : process (.ok (some raw)) (validate L) mid = { id := mid, success := true, category := some c, description := some v.description, emails := some v.emails } := by
          simp [process, processBody, hv, hc]
        rw [hp]
        intro h
        cases h

/-- Witness for C10: the real validator on a concrete payload yields a
non-null category, and a concrete processed outcome never carries the
null-category message. -/
theorem C10_null_category_unreachable_witness :
    (∃ c : Category, (⟨some .internal, "", []⟩ : ValidatedLLMResponse).category = some c) ∧
    (process (.ok (some (.dict []))) (validate 25) 4).error ≠ some "Invalid category in LLM response" := by
  refine ⟨C10_null_category_unreachable.1 25 (.dict [("category", .str "internal")])
      ⟨some .internal, "", []⟩ rfl,
    C10_null_category_unreachable.2 25 (.ok (some (.dict []))) 4⟩

/-! ## Claim C9: dataset ids and the position-0 default -/

/-- Every message pydantic lets through satisfies the declared field bounds. -/
theorem mkMessage_ok_bounds (idv textv : PyVal) (m : Message) (h : mkMessage idv textv = .ok m) :
    0 < m.id ∧ 1 ≤ m.text.length ∧ m.text.length ≤ 10000 := by
  rcases idv with _ | b | n | s | xs | kvs <;> rcases textv with _ | b2 | n2 | s2 | xs2 | kvs2 <;>
    simp [mkMessage] at h <;> split_ifs at h with h1 h2 h3 <;> try cases h
  refine ⟨?_, ?_, ?_⟩
  · show 0 < n
    omega
  · show 1 ≤ s2.length
    omega
  · show s2.length ≤ 10000
    omega

/-- A successfully constructed message from an integer id carries that id. -/
theorem mkMessage_ok_id (n : Int) (textv : PyVal) (m : Message)
    (h : mkMessage (.int n) textv = .ok m) : m.id = n := by
  rcases textv with _ | b2 | n2 | s2 | xs2 | kvs2 <;>
    simp [mkMessage] at h <;> split_ifs at h with h1 h2 h3 <;> try cases h
  rfl

/-- A loop item yielding a result means the item was a dict (id defaulting
to the position) or a plain string (id = position). -/
theorem loadItem_ok (i : Nat) (item : PyVal) (r : Except PyErr Message)
    (h : loadItem i item = some r) :
    (∃ kvs, item = .dict kvs ∧ r = mkMessage (pyGetD kvs "id" (.int i)) (textOf kvs)) ∨
    (∃ s, item = .str s ∧ r = mkMessage (.int i) (.str s)) := by
  rcases item with _ | b | n | s | xs | kvs <;> simp [loadItem] at h
  · exact Or.inr ⟨s, rfl, h.symm⟩
  · exact Or.inl ⟨kvs, rfl, h.symm⟩

/-- Every message the array-branch loop returns satisfies the bounds. -/
theorem loadItems_bounds : ∀ (items : List PyVal) (i : Nat) (msgs : List Message),
    loadItems items i = .ok msgs →
    ∀ m ∈ msgs, 0 < m.id ∧ 1 ≤ m.text.length ∧ m.text.length ≤ 10000
| [], i, msgs => by
  intro h m hm
  rw [loadItems] at h
  injection h with h2
  subst h2
  cases hm
| item :: rest, i, msgs => by
  intro h m hm
  rw [loadItems] at h
  rcases hli : loadItem i item with _ | ex
  · rw [hli] at h
    exact loadItems_bounds rest (i + 1) msgs h m hm
  · rcases ex with e | m0
    · rw [hli] at h
      cases h
    · rw [hli] at h
      rcases hrest : loadItems rest (i + 1) with e2 | ms
      · rw [hrest] at h
        cases h
      · rw [hrest] at h
        injection h with h2
        subst h2
        rcases List.mem_cons.mp hm with h3 | h3
        · subst h3
          rcases loadItem_ok i item (.ok m) hli with ⟨kvs, _, hr⟩ | ⟨s, _, hr⟩
          · exact mkMessage_ok_bounds _ _ m hr.symm
          · exact mkMessage_ok_bounds _ _ m hr.symm
        · exact loadItems_bounds rest (i + 1) ms hrest m h3

/-- Every message the `messages`-branch loop returns satisfies the bounds. -/
theorem loadMsgItems_bounds : ∀ (items : List PyVal) (i : Nat) (msgs : List Message),
    loadMsgItems items i = .ok msgs →
    ∀ m ∈ msgs, 0 < m.id ∧ 1 ≤ m.text.length ∧ m.text.length ≤ 10000
| [], i, msgs => by
  intro h m hm
  rw [loadMsgItems] at h
  injection h with h2
  subst h2
  cases hm
| item :: rest, i, msgs => by
  intro h m hm
  rcases item with _ | bb | nn | ss | xx | kk <;> rw [loadMsgItems] at h
  case dict =>
    rcases hmk : mkMessage (pyGetD kk "id" (.int i)) (textOf kk) with e | m0
    · rw [hmk] at h
      cases h
    · rw [hmk] at h
      rcases hrest : loadMsgItems rest (i + 1) with e2 | ms
      · rw [hrest] at h
        cases h
      · rw [hrest] at h
        injection h with h2
        subst h2
        rcases List.mem_cons.mp hm with h3 | h3
        · subst h3
          exact mkMessage_ok_bounds _ _ m hmk
        · exact loadMsgItems_bounds rest (i + 1) ms hrest m h3
  all_goals cases h

/-- C9 fails as stated: for the dataset `[{"text": "hello"}]` the entry at
position 0 lacks an id, so the loader defaults the id to the positional
index 0 — and pydantic rejects `id = 0` (`id > 0` is required), so no
WorkItem is constructed at all: the whole load raises instead of producing
an item with a positive id. -/
theorem C9_counterexample :
    load_dataset (.list [.dict [("text", .str "hello")]])
      = .error (.validationError "id must be greater than 0") := rfl

/-- C9 amended: every WorkItem the loader actually constructs satisfies
`id > 0` and a text length in 1..10000; an entry lacking an `id` field gets
the positional index as its id whenever construction succeeds; and for the
entry at position 0 without an id, construction necessarily fails (the
positional default 0 violates `id > 0`), so the loader raises and no
WorkItem exists for it. -/
theorem C9_dataset_ids :
    (∀ (d : PyVal) (msgs : List Message) (m : Message),
        load_dataset d = .ok msgs → m ∈ msgs →
        0 < m.id ∧ 1 ≤ m.text.length ∧ m.text.length ≤ 10000) ∧
    (∀ (i : Nat) (kvs : List (String × PyVal)) (m : Message),
        pyGet? kvs "id" = Option.none → loadItem i (.dict kvs) = some (.ok m) →
        m.id = (i : Int)) ∧
    (∀ kvs : List (String × PyVal), pyGet? kvs "id" = Option.none →
        ∃ e, loadItem 0 (.dict kvs) = some (.error e)) := by
  refine ⟨?_, ?_, ?_⟩
  · intro d msgs m hload hm
    rcases d with _ | b | n | s | xs | kvs <;> rw [load_dataset] at hload
    case list =>
      exact loadItems_bounds xs 0 msgs hload m hm
    case dict =>
      rcases hmsgs : pyGet? kvs "messages" with _ | mv
      · rw [hmsgs] at hload
        rcases hmk : mkMessage (pyGetD kvs "id" (.int 0)) (textOf kvs) with e | m0
        · rw [hmk] at hload
          cases hload
        · rw [hmk] at hload
          injection hload with h2
          subst h2
          have h3 := List.mem_singleton.mp hm
          subst h3
          exact mkMessage_ok_bounds _ _ _ hmk
      · rw [hmsgs] at hload
        rcases mv with _ | b2 | n2 | s2 | xs2 | kvs2 <;> simp [loadMessagesVal] at hload
        case list =>
          exact loadMsgItems_bounds xs2 0 msgs hload m hm
        case str =>
          split_ifs at hload
          injection hload with h2
          subst h2
          cases hm
        case dict =>
          split_ifs at hload
          injection hload with h2
          subst h2
          cases hm
    all_goals
      injection hload with h2
      subst h2
      cases hm
  · intro i kvs m hid hload
    rw [loadItem] at hload
    injection hload with h2
    have hdflt : pyGetD kvs "id" (.int i) = .int i := by
      rw [pyGetD]
      rw [pyGet?] at hid
      rw [hid]
    rw [hdflt] at h2
    exact mkMessage_ok_id i (textOf kvs) m h2
  · intro kvs hid
    refine ⟨.validationError "id must be greater than 0", ?_⟩
    rw [loadItem]
    have hdflt : pyGetD kvs "id" (.int ((0 : Nat) : Int)) = .int ((0 : Nat) : Int) := by
      rw [pyGetD]
      rw [pyGet?] at hid
      rw [hid]
    rw [hdflt]
    rcases textOf kvs with _ | b | n | s | xs | kk <;> rfl

/-- Witness for the amended C9 at concrete datasets: a dataset with id 5
loads within bounds, an id-less entry at position 3 gets id 3, and an
id-less entry at position 0 fails construction. -/
theorem C9_dataset_ids_witness :
    (0 < (⟨5, "x"⟩ : Message).id ∧ 1 ≤ (⟨5, "x"⟩ : Message).text.length ∧
      (⟨5, "x"⟩ : Message).text.length ≤ 10000) ∧
    (⟨3, "y"⟩ : Message).id = ((3 : Nat) : Int) ∧
    ∃ e, loadItem 0 (.dict [("text", .str "hello")]) = some (.error e) := by
  refine ⟨C9_dataset_ids.1 (.list [.dict [("id", .int 5), ("text", .str "x")]]) [⟨5, "x"⟩] ⟨5, "x"⟩ rfl (by simp),
    C9_dataset_ids.2.1 3 [("text", .str "y")] ⟨3, "y"⟩ rfl rfl,
    C9_dataset_ids.2.2 [("text", .str "hello")] rfl⟩

/-! ## Claim C3: idempotent resume filter -/

/-- When every `success = true` record carries an `id`, the comprehension
returns exactly the ids the spec describes. -/
theorem collectSuccessIds_ok (rs : List PyVal)
    (h : ∀ r ∈ rs, ∀ kvs, r = PyVal.dict kvs →
        pyGet? kvs "success" = some (.bool true) → ∃ v, pyGet? kvs "id" = some v) :
    collectSuccessIds rs = .ok (rs.filterMap fun r =>
      match r with
      | .dict kvs =>
        match pyGet? kvs "success" with
        | some (.bool true) => pyGet? kvs "id"
        | _ => Option.none
      | _ => Option.none) := by
  induction rs with
  | nil => rfl
  | cons r rest ih =>
    have hrest := ih fun r2 hr2 => h r2 (List.mem_cons_of_mem r hr2)
    rcases r with _ | b | n | s | xs | kvs
    case dict =>
      rcases hsucc : pyGet? kvs "success" with _ | sv
      · simp [collectSuccessIds, hsucc, hrest, List.filterMap_cons]
      · rcases sv with _ | b2 | n2 | s2 | xs2 | kvs2
        case bool =>
          rcases b2 with _ | _
          · simp [collectSuccessIds, hsucc, hrest, List.filterMap_cons]
          · rcases h (PyVal.dict kvs) (List.mem_cons_self _ rest) kvs rfl hsucc with ⟨v, hv⟩
            simp [collectSuccessIds, hsucc, hv, hrest, List.filterMap_cons]
        all_goals simp [collectSuccessIds, hsucc, hrest, List.filterMap_cons]
    all_goals simp [collectSuccessIds, hrest, List.filterMap_cons]

/-- C3 fails as stated: with a prior output holding a `success = true` record
for id 3 **and** another `success = true` record without an `id` field, the
comprehension raises `KeyError`, the loader degrades to the empty set, and
id 3 is enqueued again — although the claim says an id appearing in a
success record is always excluded (the spec-side filter drops it). -/
theorem C3_counterexample :
    enqueue_messages [⟨3, "t"⟩]
        (.val (.list [.dict [("id", .int 3), ("success", .bool true)],
                      .dict [("success", .bool true)]])) = [⟨3, "t"⟩] ∧
    specResumeFilter [⟨3, "t"⟩]
        (.val (.list [.dict [("id", .int 3), ("success", .bool true)],
                      .dict [("success", .bool true)]])) = [] ∧
    load_processed_ids
        (.val (.list [.dict [("id", .int 3), ("success", .bool true)],
                      .dict [("success", .bool true)]])) = [] := by
  refine ⟨rfl, rfl, rfl⟩

/-- C3 amended: the resume filter enqueues exactly the input minus the items
whose id appears in a prior `success = true` record — preserving relative
order, re-enqueueing items whose prior record has `success = false` —
**provided every `success = true` record carries an `id` field**; a missing,
unreadable or malformed prior output (and likewise a prior parse where some
success record lacks an id) degrades to enqueueing every item, and the
filter never fails. -/
theorem C3_resume_filter (msgs : List Message) :
    (∀ rs : List PyVal,
        (∀ r ∈ rs, ∀ kvs, r = PyVal.dict kvs →
            pyGet? kvs "success" = some (.bool true) → ∃ v, pyGet? kvs "id" = some v) →
        enqueue_messages msgs (.val (.list rs)) = specResumeFilter msgs (.val (.list rs))) ∧
    enqueue_messages msgs .missing = msgs ∧
    enqueue_messages msgs .unreadable = msgs ∧
    enqueue_messages msgs .malformedJson = msgs ∧
    (∀ prior, List.Sublist (enqueue_messages msgs prior) msgs) ∧
    (∀ prior m, m ∈ enqueue_messages msgs prior ↔
        m ∈ msgs ∧ idProcessed m.id (load_processed_ids prior) = false) := by
  refine ⟨?_, ?_, ?_, ?_, ?_, ?_⟩
  · intro rs h
    have hload : load_processed_ids (.val (.list rs)) = specSuccessIds (.val (.list rs)) := by
      rw [load_processed_ids, collectSuccessIds_ok rs h, specSuccessIds]
    rw [enqueue_messages, specResumeFilter, hload]
  · simp [enqueue_messages, load_processed_ids, idProcessed]
  · simp [enqueue_messages, load_processed_ids, idProcessed]
  · simp [enqueue_messages, load_processed_ids, idProcessed]
  · intro prior
    exact List.filter_sublist msgs
  · intro prior m
    rw [enqueue_messages, List.mem_filter]
    constructor
    · rintro ⟨h1, h2⟩
      exact ⟨h1, by simpa using h2⟩
    · rintro ⟨h1, h2⟩
      exact ⟨h1, by simpa using h2⟩

/-- Witness for the amended C3 at a concrete prior state: a well-formed
prior output (success ids all carrying ids) makes the code filter coincide
with the spec filter, and a malformed prior enqueues everything. -/
theorem C3_resume_filter_witness :
    enqueue_messages [⟨3, "t"⟩, ⟨4, "u"⟩]
        (.val (.list [.dict [("id", .int 3), ("success", .bool true)],
                      .dict [("id", .int 4), ("success", .bool false)]]))
      = specResumeFilter [⟨3, "t"⟩, ⟨4, "u"⟩]
        (.val (.list [.dict [("id", .int 3), ("success", .bool true)],
                      .dict [("id", .int 4), ("success", .bool false)]])) ∧
    enqueue_messages [⟨3, "t"⟩, ⟨4, "u"⟩] .malformedJson = [⟨3, "t"⟩, ⟨4, "u"⟩] := by
  constructor
  · refine (C3_resume_filter [⟨3, "t"⟩, ⟨4, "u"⟩]).1
      [.dict [("id", .int 3), ("success", .bool true)],
       .dict [("id", .int 4), ("success", .bool false)]] ?_
    intro r hr kvs hk hs
    rcases List.mem_cons.mp hr with h1 | h1
    · subst h1
      injection hk with h2
      subst h2
      exact ⟨.int 3, rfl⟩
    · have h2 := List.mem_singleton.mp h1
      rw [h2] at hk
      injection hk with h3
      subst h3
      have h4 : pyGet? [("id", PyVal.int 4), ("success", PyVal.bool false)] "success"
          = some (PyVal.bool false) := rfl
      rw [h4] at hs
      injection hs with h5
      injection h5 with h6
      cases h6
  · exact (C3_resume_filter [⟨3, "t"⟩, ⟨4, "u"⟩]).2.2.1

/-! ## Claim C6: description truncation — split/join lemmas -/

/-- Splitting an all-whitespace tail only flushes the accumulator. -/
theorem splitWsAux_all_ws : ∀ (t acc : List Char), (∀ c ∈ t, isPyWs c = true) →
    splitWsAux t acc = if acc.isEmpty then [] else [acc.reverse]
| [], acc, _ => rfl
| c :: t, acc, h => by
  rw [splitWsAux]
  rw [h c (List.mem_cons_self c t)]
  simp only [if_true]
  rcases hacc : acc.isEmpty with _ | _
  · simp only [Bool.false_eq_true, if_false]
    rw [splitWsAux_all_ws t [] fun c2 hc2 => h c2 (List.mem_cons_of_mem c hc2)]
    simp
  · simp only [if_true]
    rw [splitWsAux_all_ws t [] fun c2 hc2 => h c2 (List.mem_cons_of_mem c hc2)]
    simp

/-- An all-whitespace suffix does not change the split. -/
theorem splitWsAux_append_ws : ∀ (l t acc : List Char), (∀ c ∈ t, isPyWs c = true) →
    splitWsAux (l ++ t) acc = splitWsAux l acc
| [], t, acc, h => by
  rw [List.nil_append, splitWsAux_all_ws t acc h, splitWsAux]
| c :: l, t, acc, h => by
  rw [List.cons_append, splitWsAux, splitWsAux]
  rcases hc : isPyWs c with _ | _
  · simp only [Bool.false_eq_true, if_false]
    exact splitWsAux_append_ws l t (c :: acc) h
  · simp only [if_true]
    rcases hacc : acc.isEmpty with _ | _
    · simp only [Bool.false_eq_true, if_false]
      rw [splitWsAux_append_ws l t [] h]
    · simp only [if_true]
      rw [splitWsAux_append_ws l t [] h]

/-- Leading whitespace does not change the split. -/
theorem splitWsAux_dropWhile : ∀ (l : List Char),
    splitWsAux (l.dropWhile isPyWs) [] = splitWsAux l []
| [] => rfl
| c :: l => by
  rcases hc : isPyWs c with _ | _
  · rw [List.dropWhile_cons_of_neg (by simp [hc])]
  · rw [List.dropWhile_cons_of_pos hc, splitWsAux_dropWhile l, splitWsAux, hc]
    simp

/-- `strip()` does not change the split (Python's `text.strip().split()`
equals `text.split()`). -/
theorem splitWsAux_stripChars (l : List Char) :
    splitWsAux (stripChars l) [] = splitWsAux l [] := by
  have hm : l.dropWhile isPyWs
      = stripChars l ++ ((l.dropWhile isPyWs).reverse.takeWhile isPyWs).reverse := by
    rw [stripChars]
    have h2 := List.takeWhile_append_dropWhile isPyWs (l.dropWhile isPyWs).reverse
    have h3 := congrArg List.reverse h2
    rw [List.reverse_append, List.reverse_reverse] at h3
    exact h3.symm
  have hws : ∀ c ∈ ((l.dropWhile isPyWs).reverse.takeWhile isPyWs).reverse, isPyWs c = true := by
    intro c hc
    exact List.mem_takeWhile_imp (List.mem_reverse.mp hc)
  calc splitWsAux (stripChars l) []
      = splitWsAux (stripChars l ++ ((l.dropWhile isPyWs).reverse.takeWhile isPyWs).reverse) [] :=
        (splitWsAux_append_ws _ _ [] hws).symm
    _ = splitWsAux (l.dropWhile isPyWs) [] := by rw [hm.symm]
    _ = splitWsAux l [] := splitWsAux_dropWhile l

/-- Every token the split produces is nonempty and whitespace-free. -/
theorem splitWsAux_tokens : ∀ (l acc : List Char), (∀ c ∈ acc, isPyWs c = false) →
    ∀ w ∈ splitWsAux l acc, w ≠ [] ∧ ∀ c ∈ w, isPyWs c = false
| [], acc, hacc => by
  intro w hw
  rw [splitWsAux] at hw
  rcases h : acc.isEmpty with _ | _
  · rw [h] at hw
    simp at hw
    subst hw
    refine ⟨by simpa using h, fun c hc => hacc c (List.mem_reverse.mp hc)⟩
  · rw [h] at hw
    simp at hw
| c :: l, acc, hacc => by
  intro w hw
  rw [splitWsAux] at hw
  rcases hc : isPyWs c with _ | _
  · rw [hc] at hw
    simp only [Bool.false_eq_true, if_false] at hw
    refine splitWsAux_tokens l (c :: acc) ?_ w hw
    intro c2 hc2
    rcases List.mem_cons.mp hc2 with h2 | h2
    · subst h2
      exact hc
    · exact hacc c2 h2
  · rw [hc] at hw
    simp only [if_true] at hw
    rcases hae : acc.isEmpty with _ | _
    · rw [hae] at hw
      simp only [Bool.false_eq_true, if_false, List.mem_cons] at hw
      rcases hw with h2 | h2
      · subst h2
        refine ⟨by simpa using hae, fun c2 hc2 => hacc c2 (List.mem_reverse.mp hc2)⟩
      · exact splitWsAux_tokens l [] (by simp) w h2
    · rw [hae] at hw
      simp only [if_true] at hw
      exact splitWsAux_tokens l [] (by simp) w hw

/-- Consuming a whitespace-free word accumulates it verbatim. -/
theorem splitWsAux_word : ∀ (w l acc : List Char), (∀ c ∈ w, isPyWs c = false) →
    splitWsAux (w ++ l) acc = splitWsAux l (w.reverse ++ acc)
| [], l, acc, _ => by simp
| c :: w, l, acc, h => by
  rw [List.cons_append, splitWsAux, h c (List.mem_cons_self c w)]
  simp only [Bool.false_eq_true, if_false]
  rw [splitWsAux_word w l (c :: acc) fun c2 hc2 => h c2 (List.mem_cons_of_mem c hc2)]
  simp

/-- Splitting a single-space join of nonempty whitespace-free words recovers
exactly the words. -/
theorem splitWsAux_joinWithSpace : ∀ (ws : List (List Char)), ws ≠ [] →
    (∀ w ∈ ws, w ≠ [] ∧ ∀ c ∈ w, isPyWs c = false) →
    splitWsAux (joinWithSpaceChars ws) [] = ws
| [], hne, _ => absurd rfl hne
| [w], _, h => by
  rw [joinWithSpaceChars]
  have hw := h w (List.mem_singleton.mpr rfl)
  have h2 := splitWsAux_word w [] [] hw.2
  rw [List.append_nil] at h2
  rw [h2, splitWsAux]
  simp [hw.1]
| w :: w2 :: rest, _, h => by
  have hj : joinWithSpaceChars (w :: w2 :: rest)
      = w ++ ' ' :: joinWithSpaceChars (w2 :: rest) := rfl
  rw [hj]
  rw [splitWsAux_word w (' ' :: joinWithSpaceChars (w2 :: rest)) []
    (h w (List.mem_cons_self _ _)).2]
  rw [List.append_nil, splitWsAux]
  have hww : isPyWs ' ' = true := rfl
  rw [hww]
  simp only [if_true]
  have hwne : w.reverse.isEmpty = false := by
    simp [(h w (List.mem_cons_self _ _)).1]
  rw [hwne]
  simp only [Bool.false_eq_true, if_false]
  rw [List.reverse_reverse]
  rw [splitWsAux_joinWithSpace (w2 :: rest) (by simp)
    fun w3 hw3 => h w3 (List.mem_cons_of_mem w hw3)]

/-- The character view of the string-level join. -/
theorem joinSpace_data : ∀ (ws : List (List Char)),
    (joinSpace (ws.map fun l => (⟨l⟩ : String))).data = joinWithSpaceChars ws
| [] => rfl
| [w] => rfl
| w :: w2 :: rest => by
  have hj : joinWithSpaceChars (w :: w2 :: rest)
      = w ++ ' ' :: joinWithSpaceChars (w2 :: rest) := rfl
  have hjs : joinSpace ((w :: w2 :: rest).map fun l => (⟨l⟩ : String))
      = (⟨w⟩ : String) ++ " " ++ joinSpace ((w2 :: rest).map fun l => (⟨l⟩ : String)) := rfl
  rw [hj, hjs, String.data_append, String.data_append, joinSpace_data (w2 :: rest)]
  simp

/-- String-level: stripping does not change the split. -/
theorem pySplit_pyStrip (s : String) : pySplit (pyStrip s) = pySplit s := by
  rw [pySplit, pySplit, pyStrip]
  rw [show (⟨stripChars s.data⟩ : String).data = stripChars s.data from rfl]
  rw [splitWsAux_stripChars]

/-- String-level: splitting the single-space join of the first `L` tokens
recovers exactly those tokens. -/
theorem pySplit_joinSpace_take (s : String) (L : Nat) (hL : 0 < L)
    (hlen : L < (pySplit s).length) :
    pySplit (joinSpace ((pySplit s).take L)) = (pySplit s).take L := by
  have hmap : (pySplit s).take L = ((splitWsAux s.data []).take L).map (fun l => (⟨l⟩ : String)) := by
    rw [pySplit, List.map_take]
  have hlen2 : L < (splitWsAux s.data []).length := by
    rw [pySplit, List.length_map] at hlen
    exact hlen
  have htake_ne : (splitWsAux s.data []).take L ≠ [] := by
    intro h
    have h2 := congrArg List.length h
    rw [List.length_take, List.length_nil, Nat.min_def] at h2
    split_ifs at h2 <;> omega
  have htokens : ∀ w ∈ (splitWsAux s.data []).take L, w ≠ [] ∧ ∀ c ∈ w, isPyWs c = false :=
    fun w hw => splitWsAux_tokens s.data [] (by simp) w (List.take_subset L _ hw)
  rw [hmap, pySplit]
  rw [show (joinSpace (((splitWsAux s.data []).take L).map fun l => (⟨l⟩ : String))).data
      = joinWithSpaceChars ((splitWsAux s.data []).take L) from joinSpace_data _]
  rw [splitWsAux_joinWithSpace ((splitWsAux s.data []).take L) htake_ne htokens]

/-- C6: description extraction returns the empty string for a missing or
falsy field; and for a string field whose whitespace token count exceeds the
(positive) word limit, it returns exactly the first `limit` tokens re-joined
with single spaces — the result splits back to exactly those `limit`
tokens. -/
theorem C6_description_truncation (L : Nat) (hL : 0 < L) (kvs : List (String × PyVal)) :
    (pyTruthy (pyGetD kvs "description" (.str "")) = false →
        extract_description L kvs = "") ∧
    (∀ s, pyGetD kvs "description" (.str "") = .str s → L < (pySplit s).length →
        extract_description L kvs = joinSpace ((pySplit s).take L) ∧
        pySplit (extract_description L kvs) = (pySplit s).take L ∧
        (pySplit (extract_description L kvs)).length = L) := by
  constructor
  · intro h
    rw [extract_description, h]
    simp
  · intro s hget hlen
    have hsne : s ≠ "" := by
      intro he
      subst he
      have h0 : pySplit "" = [] := rfl
      rw [h0] at hlen
      simp at hlen
    have htruthy : pyTruthy (.str s) = true := by
      simp [pyTruthy, hsne]
    have hstr : pyStr (.str s) = s := by simp [pyStr]
    have hsplit : pySplit (pyStrip (pyStr (.str s))) = pySplit s := by
      rw [hstr, pySplit_pyStrip]
    have hcond : (decide (L ≠ 0) && decide (L < (pySplit (pyStrip (pyStr (.str s)))).length)) = true := by
      rw [hsplit]
      simp only [Bool.and_eq_true, decide_eq_true_eq]
      omega
    have hres : extract_description L kvs = joinSpace ((pySplit s).take L) := by
      rw [extract_description, hget, htruthy]
      simp only [Bool.not_true, Bool.false_eq_true, if_false]
      rw [if_pos hcond, hsplit]
    refine ⟨hres, ?_, ?_⟩
    · rw [hres]
      exact pySplit_joinSpace_take s L hL hlen
    · rw [hres, pySplit_joinSpace_take s L hL hlen, List.length_take]
      omega

/-- Witness for C6 at a concrete 4-word description with limit 3. -/
theorem C6_description_truncation_witness :
    extract_description 3 [("description", .str " one two  three four ")]
      = joinSpace ((pySplit " one two  three four ").take 3) ∧
    pySplit (extract_description 3 [("description", .str " one two  three four ")])
      = (pySplit " one two  three four ").take 3 ∧
    (pySplit (extract_description 3 [("description", .str " one two  three four ")])).length = 3 := by
  exact (C6_description_truncation 3 (by omega) [("description", .str " one two  three four ")]).2
    " one two  three four " rfl (by decide)

/-! ## Claim C4: email extraction -/

/-- ASCII lowering is idempotent. -/
theorem asciiLowerChar_idem (c : Char) : asciiLowerChar (asciiLowerChar c) = asciiLowerChar c := by
  rcases h : (65 ≤ c.toNat && c.toNat ≤ 90 : Bool) with _ | _
  · have h1 : asciiLowerChar c = c := by
      rw [asciiLowerChar, h]
      simp
    rw [h1, asciiLowerChar, h]
    simp
  · have h2 : asciiLowerChar c = Char.ofNat (c.toNat + 32) := by
      rw [asciiLowerChar, h]
      simp
    simp only [Bool.and_eq_true, decide_eq_true_eq] at h
    have hvalid : (c.toNat + 32).isValidChar := by
      left
      omega
    have htn : (Char.ofNat (c.toNat + 32)).toNat = c.toNat + 32 := by
      simp [Char.ofNat, Char.ofNatAux, hvalid]
      rfl
    rw [h2, asciiLowerChar, htn]
    have hcond : (65 ≤ c.toNat + 32 && c.toNat + 32 ≤ 90 : Bool) = false := by
      simp only [Bool.and_eq_false_iff]
      right
      simp only [decide_eq_false_iff_not]
      omega
    rw [hcond]
    simp

/-- Stripping only keeps characters of the original list. -/
theorem stripChars_subset (l : List Char) : ∀ c ∈ stripChars l, c ∈ l := by
  intro c hc
  rw [stripChars] at hc
  have h1 := List.mem_reverse.mp hc
  have h2 := (List.dropWhile_sublist isPyWs).subset h1
  have h3 := List.mem_reverse.mp h2
  exact (List.dropWhile_sublist isPyWs).subset h3

/-- A normalized candidate is a fixed point of lowering. -/
theorem pyLower_fix (s : String) : pyLower (pyStrip (pyLower s)) = pyStrip (pyLower s) := by
  have hlow : ∀ c ∈ (pyLower s).data, asciiLowerChar c = c := by
    intro c hc
    rw [pyLower] at hc
    rw [show (⟨s.data.map asciiLowerChar⟩ : String).data = s.data.map asciiLowerChar from rfl] at hc
    rcases List.mem_map.mp hc with ⟨c0, _, hc0⟩
    rw [hc0.symm]
    exact asciiLowerChar_idem c0
  have hsub : ∀ c ∈ (pyStrip (pyLower s)).data, asciiLowerChar c = c := by
    intro c hc
    rw [pyStrip] at hc
    rw [show (⟨stripChars (pyLower s).data⟩ : String).data = stripChars (pyLower s).data from rfl] at hc
    exact hlow c (stripChars_subset _ c hc)
  rw [pyLower]
  rw [map_fix asciiLowerChar (pyStrip (pyLower s)).data hsub]

/-- C4: on a list-valued `emails` field the extractor returns exactly the
set of normalized (lowercased, trimmed) string candidates that pass the
strict pattern and contain neither `@@` nor `..`; non-string entries are
dropped and a non-list field yields the empty result; the output is
lexicographically sorted, duplicate-free, and every element is its own
lowercase form. -/
theorem C4_email_extraction (kvs : List (String × PyVal)) :
    (∀ items, pyGetD kvs "emails" (.list []) = .list items →
        ∀ e, e ∈ extract_emails kvs ↔
          ∃ s, PyVal.str s ∈ items ∧ pyStrip (pyLower s) = e ∧ is_valid_email e = true) ∧
    ((∀ items, pyGetD kvs "emails" (.list []) ≠ .list items) → extract_emails kvs = []) ∧
    List.Sorted (· ≤ ·) (extract_emails kvs) ∧
    (extract_emails kvs).Nodup ∧
    (∀ e ∈ extract_emails kvs, pyLower e = e) := by
  rcases hget : pyGetD kvs "emails" (.list []) with _ | b | n | s | items | kvs2
  case list =>
    have hee : extract_emails kvs = List.insertionSort (· ≤ ·)
        (items.filterMap fun item =>
          match item with
          | .str s =>
            if is_valid_email (pyStrip (pyLower s)) then some (pyStrip (pyLower s)) else Option.none
          | _ => Option.none).dedup := by
      rw [extract_emails, hget]
    refine ⟨?_, ?_, ?_, ?_, ?_⟩
    · intro items2 hitems e
      have h2 : items2 = items := by
        injection hitems.symm
      subst h2
      rw [hee]
      rw [List.mem_insertionSort, List.mem_dedup, List.mem_filterMap]
      constructor
      · rintro ⟨a, ha, hfa⟩
        rcases a with _ | b2 | n2 | s2 | xs2 | kk2 <;> simp at hfa
        rcases hfa with ⟨hval, heq⟩
        subst heq
        exact ⟨s2, ha, rfl, hval⟩
      · rintro ⟨s2, hs2, heq, hval⟩
        refine ⟨.str s2, hs2, ?_⟩
        simp only
        rw [heq, if_pos hval]
    · intro hne
      exact absurd rfl (hne items)
    · rw [hee]
      exact List.sorted_insertionSort _ _
    · rw [hee]
      exact (List.perm_insertionSort _ _).symm.nodup (List.nodup_dedup _)
    · intro e he
      rw [hee, List.mem_insertionSort, List.mem_dedup, List.mem_filterMap] at he
      rcases he with ⟨a, _, hfa⟩
      rcases a with _ | b2 | n2 | s2 | xs2 | kk2 <;> simp at hfa
      rcases hfa with ⟨_, heq⟩
      subst heq
      exact pyLower_fix s2
  all_goals
    have hee : extract_emails kvs = [] := by
      rw [extract_emails, hget]
    refine ⟨?_, ?_, ?_, ?_, ?_⟩
    · intro items2 hitems e
      cases hitems
    · intro _
      exact hee
    · rw [hee]
      exact List.sorted_nil
    · rw [hee]
      exact List.nodup_nil
    · intro e he
      rw [hee] at he
      cases he

/-- Witness for C4 at a concrete mixed payload: the normalized candidate
is a member, the `..`-containing and non-string candidates are not, and the
output is sorted. -/
theorem C4_email_extraction_witness :
    ("admin@company.com" ∈ extract_emails
        [("emails", .list [.str " Admin@Company.com ", .str "a..b@c.de", .int 5])] ∧
     ¬ "a..b@c.de" ∈ extract_emails
        [("emails", .list [.str " Admin@Company.com ", .str "a..b@c.de", .int 5])]) ∧
    List.Sorted (· ≤ ·) (extract_emails
        [("emails", .list [.str " Admin@Company.com ", .str "a..b@c.de", .int 5])]) := by
  have h := C4_email_extraction [("emails", .list [.str " Admin@Company.com ", .str "a..b@c.de", .int 5])]
  refine ⟨⟨?_, ?_⟩, h.2.2.1⟩
  · exact (h.1 [.str " Admin@Company.com ", .str "a..b@c.de", .int 5] rfl "admin@company.com").mpr
      ⟨" Admin@Company.com ", by simp, by decide, by decide⟩
  · intro hmem
    rcases (h.1 [.str " Admin@Company.com ", .str "a..b@c.de", .int 5] rfl "a..b@c.de").mp hmem
      with ⟨s2, hs2, heq, hval⟩
    revert hval
    decide

/-! ## Claim C8: drain-phase completeness -/

/-- The ids accumulated by a list of workers. -/
def WR (ws : List WorkerSt) : List Int :=
  (ws.map fun w => w.results.map EnrichmentResult.id).flatten

/-- `WR` distributes over append. -/
theorem WR_append (A B : List WorkerSt) : WR (A ++ B) = WR A ++ WR B := by
  simp [WR]

/-- `WR` on a cons. -/
theorem WR_cons (w : WorkerSt) (A : List WorkerSt) :
    WR (w :: A) = w.results.map EnrichmentResult.id ++ WR A := by
  simp [WR]

/-- `WR` is the id image of the concatenated results. -/
theorem WR_eq_flatten_map : ∀ ws : List WorkerSt,
    WR ws = ((ws.map WorkerSt.results).flatten).map EnrichmentResult.id
| [] => rfl
| w :: rest => by
  rw [WR_cons, WR_eq_flatten_map rest]
  simp

/-- The drain-phase invariant: the worker pool keeps its size; the ids still
queued plus the ids already collected are exactly the initial ids (as a
multiset — nothing lost, nothing duplicated); and once any worker is
drained the queue is empty. -/
def poolInv (msgs : List Message) (K : Nat) (s : PoolState) : Prop :=
  s.workers.length = K ∧
  ((s.queue.map Message.id : List Int) : Multiset Int) + ((WR s.workers : List Int) : Multiset Int)
    = ((msgs.map Message.id : List Int) : Multiset Int) ∧
  ((∃ w ∈ s.workers, w.drained = true) → s.queue = [])

/-- A list whose `i`-th entry is `w` splits around position `i`. -/
theorem list_decomp {α : Type} (ws : List α) (i : Nat) (w : α) (h : ws.get? i = some w) :
    i < ws.length ∧ ws = ws.take i ++ w :: ws.drop (i + 1) := by
  have hlen : i < ws.length := (List.get?_eq_some.mp h).1
  refine ⟨hlen, ?_⟩
  have h2 : ws.get? i = some ws[i] := by
    rw [List.get?_eq_getElem?, List.getElem?_eq_getElem hlen]
  rw [h2] at h
  injection h with h3
  have h4 := List.take_append_drop i ws
  rw [List.drop_eq_getElem_cons hlen, h3] at h4
  exact h4.symm

/-- Every scheduler step preserves the invariant. -/
theorem poolInv_step (proc : Message → EnrichmentResult)
    (hproc : ∀ m, (proc m).id = m.id) (msgs : List Message) (K : Nat)
    (s t : PoolState) (hstep : PoolStep proc s t) (hinv : poolInv msgs K s) :
    poolInv msgs K t := by
  rcases hstep with ⟨i, m, rest, ws, w, hi, hnd⟩ | ⟨i, ws, w, hi, hnd⟩
  · rcases list_decomp ws i w hi with ⟨hlen, hdecomp⟩
    set A := ws.take i with hA
    set B := ws.drop (i + 1) with hB
    have hset : ws.set i ⟨w.results ++ [proc m], false⟩
        = A ++ ⟨w.results ++ [proc m], false⟩ :: B := by
      rw [hA, hB, List.set_eq_take_append_cons_drop, if_pos hlen]
    refine ⟨?_, ?_, ?_⟩
    · rw [show (⟨rest, ws.set i ⟨w.results ++ [proc m], false⟩⟩ : PoolState).workers
          = ws.set i ⟨w.results ++ [proc m], false⟩ from rfl, List.length_set]
      exact hinv.1
    · have hold := hinv.2.1
      rw [hdecomp] at hold
      rw [WR_append, WR_cons, List.map_cons] at hold
      show (↑(rest.map Message.id) : Multiset Int)
          + ↑(WR (ws.set i ⟨w.results ++ [proc m], false⟩)) = ↑(msgs.map Message.id)
      rw [hset, WR_append, WR_cons]
      rw [show (⟨w.results ++ [proc m], false⟩ : WorkerSt).results = w.results ++ [proc m] from rfl]
      rw [List.map_append]
      rw [show ([proc m].map EnrichmentResult.id : List Int) = [m.id] from by simp [hproc m]]
      rw [hold.symm, ← Multiset.coe_add, ← Multiset.coe_add]
      refine Multiset.coe_eq_coe.mpr ?_
      have h6 : List.map Message.id rest
            ++ (WR A ++ (List.map EnrichmentResult.id w.results ++ [m.id] ++ WR B))
          = (List.map Message.id rest ++ WR A ++ List.map EnrichmentResult.id w.results)
            ++ m.id :: WR B := by
        simp [List.append_assoc]
      have h7 : (m.id :: List.map Message.id rest)
            ++ (WR A ++ (List.map EnrichmentResult.id w.results ++ WR B))
          = m.id :: ((List.map Message.id rest ++ WR A ++ List.map EnrichmentResult.id w.results)
            ++ WR B) := by
        simp [List.append_assoc]
      rw [h6, h7]
      exact List.perm_middle
    · intro hdr
      exfalso
      rcases hdr with ⟨w2, hw2, hd2⟩
      rw [show (⟨rest, ws.set i ⟨w.results ++ [proc m], false⟩⟩ : PoolState).workers
          = ws.set i ⟨w.results ++ [proc m], false⟩ from rfl, hset] at hw2
      rcases List.mem_append.mp hw2 with h2 | h2
      · have h3 : w2 ∈ ws := by
          rw [hA] at h2
          exact (List.take_sublist i ws).subset h2
        have h4 := hinv.2.2 ⟨w2, h3, hd2⟩
        cases h4
      · rcases List.mem_cons.mp h2 with h3 | h3
        · subst h3
          cases hd2
        · have h4 : w2 ∈ ws := by
            rw [hB] at h3
            exact (List.drop_sublist (i + 1) ws).subset h3
          have h5 := hinv.2.2 ⟨w2, h4, hd2⟩
          cases h5
  · rcases list_decomp ws i w hi with ⟨hlen, hdecomp⟩
    set A := ws.take i with hA
    set B := ws.drop (i + 1) with hB
    have hset : ws.set i ⟨w.results, true⟩ = A ++ ⟨w.results, true⟩ :: B := by
      rw [hA, hB, List.set_eq_take_append_cons_drop, if_pos hlen]
    refine ⟨?_, ?_, fun _ => rfl⟩
    · rw [show (⟨[], ws.set i ⟨w.results, true⟩⟩ : PoolState).workers
          = ws.set i ⟨w.results, true⟩ from rfl, List.length_set]
      exact hinv.1
    · have hold := hinv.2.1
      rw [hdecomp] at hold
      rw [WR_append, WR_cons] at hold
      show (↑(([] : List Message).map Message.id) : Multiset Int)
          + ↑(WR (ws.set i ⟨w.results, true⟩)) = ↑(msgs.map Message.id)
      rw [hset, WR_append, WR_cons]
      exact hold

/-- The invariant holds at the fully pre-loaded initial state. -/
theorem poolInv_init (msgs : List Message) (K : Nat) :
    poolInv msgs K (initState msgs K) := by
  refine ⟨by simp [initState], ?_, ?_⟩
  · show (↑(msgs.map Message.id) : Multiset Int) + ↑(WR (List.replicate K ⟨[], false⟩))
        = ↑(msgs.map Message.id)
    have h : WR (List.replicate K (⟨[], false⟩ : WorkerSt)) = [] := by
      simp [WR, List.map_replicate]
    rw [h]
    simp
  · rintro ⟨w, hw, hd⟩
    have h2 := List.eq_of_mem_replicate hw
    subst h2
    cases hd

/-- The invariant holds at every reachable state. -/
theorem poolInv_reach (proc : Message → EnrichmentResult)
    (hproc : ∀ m, (proc m).id = m.id) (msgs : List Message) (K : Nat)
    (s : PoolState) (h : PoolReach proc (initState msgs K) s) :
    poolInv msgs K s := by
  induction h with
  | refl => exact poolInv_init msgs K
  | tail h1 h2 ih => exact poolInv_step proc hproc msgs K _ _ h2 ih

/-- C8: for a queue fully pre-loaded with messages of distinct ids and any
pool of `K ≥ 1` workers, after every interleaving of the drain phase that
ends with all workers drained, the aggregated sorted outcome sequence has
exactly one outcome per input id — none lost, none duplicated — and is
sorted by id ascending. -/
theorem C8_pool_completeness (proc : Message → EnrichmentResult)
    (hproc : ∀ m, (proc m).id = m.id)
    (msgs : List Message) (K : Nat) (hK : 1 ≤ K)
    (hnodup : (msgs.map Message.id).Nodup)
    (s : PoolState) (hreach : PoolReach proc (initState msgs K) s)
    (hdrained : AllDrained s) :
    (aggregate s).length = msgs.length ∧
    List.Perm ((aggregate s).map EnrichmentResult.id) (msgs.map Message.id) ∧
    ((aggregate s).map EnrichmentResult.id).Nodup ∧
    List.Sorted byId (aggregate s) ∧
    ∀ mid ∈ msgs.map Message.id, ((aggregate s).map EnrichmentResult.id).count mid = 1 := by
  have hinv := poolInv_reach proc hproc msgs K s hreach
  have hq : s.queue = [] := by
    apply hinv.2.2
    have hlen : s.workers.length = K := hinv.1
    rcases hws : s.workers with _ | ⟨w0, wrest⟩
    · exfalso
      rw [hws] at hlen
      simp at hlen
      omega
    · refine ⟨w0, List.mem_cons_self w0 wrest, hdrained w0 ?_⟩
      rw [hws]
      exact List.mem_cons_self w0 wrest
  have hids : List.Perm (WR s.workers) (msgs.map Message.id) := by
    have h2 := hinv.2.1
    rw [hq] at h2
    simp only [List.map_nil] at h2
    rw [show ((([] : List Int) : Multiset Int)) = 0 from rfl] at h2
    rw [zero_add] at h2
    exact Multiset.coe_eq_coe.mp h2
  have hWR : ((s.workers.map WorkerSt.results).flatten).map EnrichmentResult.id = WR s.workers :=
    (WR_eq_flatten_map s.workers).symm
  have haggmap : List.Perm ((aggregate s).map EnrichmentResult.id) (msgs.map Message.id) := by
    have hperm : List.Perm (aggregate s) ((s.workers.map WorkerSt.results).flatten) :=
      List.perm_insertionSort byId _
    have h3 := hperm.map EnrichmentResult.id
    rw [hWR] at h3
    exact h3.trans hids
  refine ⟨?_, haggmap, ?_, ?_, ?_⟩
  · have h4 := haggmap.length_eq
    rw [List.length_map, List.length_map] at h4
    exact h4
  · exact haggmap.symm.nodup hnodup
  · exact List.sorted_insertionSort byId _
  · intro mid hmid
    rw [haggmap.count_eq mid]
    exact List.count_eq_one_of_mem hnodup hmid

/-- Witness for C8: a concrete complete run — one worker drains a one-item
queue (one dequeue step, then the drained transition) — yields one sorted
outcome for the single input id. -/
theorem C8_pool_completeness_witness :
    (aggregate ⟨[], [⟨[{ id := (1 : Int), success := false, error := some "e" }], true⟩]⟩).length
      = [(⟨1, "x"⟩ : Message)].length ∧
    List.Sorted byId
      (aggregate ⟨[], [⟨[{ id := (1 : Int), success := false, error := some "e" }], true⟩]⟩) := by
  have hstep1 : PoolStep (fun m => { id := m.id, success := false, error := some "e" })
      ⟨[⟨1, "x"⟩], [⟨[], false⟩]⟩
      ⟨[], [⟨[{ id := (1 : Int), success := false, error := some "e" }], false⟩]⟩ := by
    have h := @PoolStep.dequeue (fun m => { id := m.id, success := false, error := some "e" })
      0 ⟨1, "x"⟩ [] [⟨[], false⟩] ⟨[], false⟩ rfl rfl
    exact h
  have hstep2 : PoolStep (fun m => { id := m.id, success := false, error := some "e" })
      ⟨[], [⟨[{ id := (1 : Int), success := false, error := some "e" }], false⟩]⟩
      ⟨[], [⟨[{ id := (1 : Int), success := false, error := some "e" }], true⟩]⟩ := by
    have h := @PoolStep.drain (fun m => { id := m.id, success := false, error := some "e" })
      0 [⟨[{ id := (1 : Int), success := false, error := some "e" }], false⟩]
      ⟨[{ id := (1 : Int), success := false, error := some "e" }], false⟩ rfl rfl
    exact h
  have hreach : PoolReach (fun m => { id := m.id, success := false, error := some "e" })
      (initState [⟨1, "x"⟩] 1)
      ⟨[], [⟨[{ id := (1 : Int), success := false, error := some "e" }], true⟩]⟩ :=
    Relation.ReflTransGen.tail (Relation.ReflTransGen.tail Relation.ReflTransGen.refl hstep1) hstep2
  have h := C8_pool_completeness (fun m => { id := m.id, success := false, error := some "e" })
    (fun _ => rfl) [⟨1, "x"⟩] 1 (le_refl 1) (by simp)
    ⟨[], [⟨[{ id := (1 : Int), success := false, error := some "e" }], true⟩]⟩ hreach
    (by
      intro w hw
      have h2 := List.mem_singleton.mp hw
      subst h2
      rfl)
  exact ⟨h.1, h.2.2.2.1⟩
